import Mathlib

/-!
# WatchTower — verification of the spec against the source

A shallow embedding of the WatchTower directory watcher
(`watchtower/WatchMan.py`, `watchtower/Triggers.py`, `watchtower/Action.py`)
and proofs settling the frozen claims about it.

Python strings are modelled as `List Char`; exceptions as `Option`/`Except`;
the side-effectful scan-and-dispatch loop of `WatchMan.run` as a pure
function producing a chronological list of observable events (action
dispatch attempts and file-removal attempts).
-/

namespace WatchTower

/-- A Python string, modelled as its list of characters. -/
abbrev Str := List Char

/- ### File-contents parsing (WatchMan.run, lines 158-163) -/

/-- Python `str.isspace` on the ASCII whitespace characters
(space, tab, newline, carriage return, vertical tab, form feed);
`str.strip()` removes exactly these from either end for ASCII input. -/
def pyIsSpace (c : Char) : Bool :=
  c == ' ' || c == '\t' || c == '\n' || c == '\r' ||
    c == Char.ofNat 11 || c == Char.ofNat 12

/-- Truthiness of `contents.strip()`: the stripped string is non-empty
iff some character is not whitespace. -/
def hasNonSpace (s : Str) : Bool :=
  s.any (fun c => !(pyIsSpace c))

/-- Python `contents.split(chr(10))`: split on every newline; yields one
more piece than there are newlines, so the result is never empty and the
empty string splits to a single empty piece. -/
def splitNL : Str → List Str
  | [] => [[]]
  | c :: rest =>
      if c = '\n' then [] :: splitNL rest
      else
        match splitNL rest with
        | [] => [[c]]
        | l :: ls => (c :: l) :: ls

/-- WatchMan.run lines 158-163: parse a matched file's contents into the
action's line list. If the stripped contents are falsy the list is empty;
otherwise split on newline and drop the final piece when it is empty
(`data.pop()` of a trailing empty entry). -/
def parseContents (contents : Str) : List Str :=
  if hasNonSpace contents then
    let data := splitNL contents
    match data.getLast? with
    | some l => if l = [] then data.dropLast else data
    | none => data
  else []

/- ### rootDir normalization (WatchMan.__init__, lines 58-62) -/

/-- WatchMan.__init__ lines 58-62: strip one trailing slash
(`rootDir.endswith(chr(47))` then `rootDir[:-1]`), then replace the empty
string by a single dot. -/
def normalizeRootDir (rootDir : Str) : Str :=
  let r := if rootDir.getLast? = some '/' then rootDir.dropLast else rootDir
  if r.length = 0 then ['.'] else r

/- ### Pattern validation (Triggers.py, lines 21-53 and 192-200) -/

/-- The validation reason codes of `_genericValidatePattern`
(`_VALIDATE_STRING_*`), plus the glob-specific wildcard error raised by
`TriggerGlob._validatePattern`. -/
inductive PatternError where
  | badType
  | empty
  | allDots
  | badSlash
  | globNoWildcard
deriving DecidableEq, Repr

/-- A Python exception escaping pattern validation or trigger
construction: either a `TypeError` raised by the `re` module when handed a
non-string, or the `ValueError` raised by `Trigger._validatePattern` with
one of the reason codes. -/
inductive PyExn where
  | typeError
  | valueError (e : PatternError)
deriving DecidableEq, Repr

/-- The argument given to a trigger constructor: either a plain string or
an already-compiled regular expression (`re._pattern_type`), which carries
its source pattern string. -/
inductive REInput where
  | str (s : Str)
  | compiled (source : Str)
deriving DecidableEq, Repr

/-- `allDotsRE.match(s)` for `allDotsRE = re.compile` of caret, one or
more literal dots, dollar: the maximal run of leading dots is non-empty
and is followed by nothing, or by a single final newline (a dollar in a
non-MULTILINE Python regex also matches just before a string-final
newline). -/
def allDotsMatch (s : Str) : Bool :=
  let d := s.takeWhile (fun c => c = '.')
  let rest := s.dropWhile (fun c => c = '.')
  !d.isEmpty && (rest.isEmpty || rest == ['\n'])

/-- `validGlobRE.match(pattern)` for `validGlobRE = re.compile` of a
character class holding star and question mark. `re.Pattern.match`
anchors at position 0, so this succeeds exactly when the FIRST character
of the pattern is a wildcard. -/
def validGlobMatch (s : Str) : Bool :=
  match s with
  | [] => false
  | c :: _ => c == '*' || c == '?'

/-- `_genericValidatePattern(theString, allowedTypes)` (Triggers.py lines
32-53). `allowCompiled` is whether `allowedTypes` is
`StringTypesOrCompiledRE` rather than `StringTypes`. A compiled pattern
object is truthy, so it passes the emptiness check and then reaches
`allDotsRE.match(theString)`, which raises `TypeError` on a non-string
argument. -/
def genericValidatePattern (p : REInput) (allowCompiled : Bool) :
    Except PyExn (Option PatternError) :=
  if (match p with | .compiled _ => !allowCompiled | .str _ => false) then
    .ok (some .badType)
  else if !(match p with | .str s => !s.isEmpty | .compiled _ => true) then
    .ok (some .empty)
  else
    match p with
    | .compiled _ => .error .typeError
    | .str s =>
        if allDotsMatch s then .ok (some .allDots)
        else if '/' ∈ s then .ok (some .badSlash)
        else .ok none

/-- `TriggerGlob._validatePattern` (Triggers.py lines 197-200): the
generic validation with string-only types, then the wildcard check via
`validGlobRE.match`. An `.ok (some e)` models `Trigger._validatePattern`
raising `ValueError` with reason `e`. -/
def triggerGlobValidatePattern (s : Str) : Except PyExn (Option PatternError) :=
  match genericValidatePattern (.str s) false with
  | .error e => .error e
  | .ok (some e) => .ok (some e)
  | .ok none =>
      .ok (if validGlobMatch s then none else some .globNoWildcard)

/-- `TriggerRE` construction (Trigger.__init__ lines 70-73 with
TriggerRE._validatePattern via `StringTypesOrCompiledRE` and
`TriggerRE._processPattern`): validate, then store the compiled pattern
(compiling a string, passing a compiled expression through unchanged).
The result is the source string of the stored compiled pattern. -/
def triggerREConstruct (p : REInput) : Except PyExn Str :=
  match genericValidatePattern p true with
  | .error e => .error e
  | .ok (some e) => .error (.valueError e)
  | .ok none =>
      .ok (match p with | .compiled s => s | .str s => s)

/- ### The matchers (Triggers.py, getFilenameMatches variants) -/

/-- `TriggerRE.getFilenameMatches` (lines 162-164): the list of candidate
names on which `pattern.match(item)` is truthy. `matchesAt0 item` models
`bool(pattern.match(item))`, a prefix match at position 0. -/
def reGetFilenameMatches (matchesAt0 : Str → Bool) (directoryContents : List Str) :
    List Str :=
  directoryContents.filter matchesAt0

/-- `TriggerExactMatch.getFilenameMatches` (lines 208-211). -/
def exactGetFilenameMatches (pattern : Str) (directoryContents : List Str) :
    List Str :=
  if pattern ∈ directoryContents then [pattern] else []

/-- `TriggerCaseInsensitiveMatch._processPattern` (line 226-227):
the stored pattern is the lower-cased input. -/
def caseInsensitiveProcessPattern (pattern : Str) : Str :=
  pattern.map Char.toLower

/-- `TriggerCaseInsensitiveMatch.getFilenameMatches` (lines 219-223):
walk the candidates and RETURN on the first whose lower-casing equals the
stored (already lower-cased) pattern; an empty list if none does. -/
def caseInsensitiveGetFilenameMatches (pattern : Str) :
    List Str → List Str
  | [] => []
  | item :: rest =>
      if item.map Char.toLower = pattern then [item]
      else caseInsensitiveGetFilenameMatches pattern rest

/- ### The scan-and-dispatch cycle (WatchMan.run, lines 128-191) -/

/-- An observable event of one scan-and-dispatch cycle: an action dispatch
attempt (`trigger.runAction(match, data)` at trigger index `tIdx`, with
`ok` recording whether the action succeeded — an exception is caught
either way), or a file-removal attempt (`os.remove`). -/
inductive Ev where
  | dispatch (tIdx : ℕ) (name : Str) (data : List Str) (ok : Bool)
  | delete (name : Str)
deriving DecidableEq, Repr

/-- The filename an event is about. -/
def Ev.name : Ev → Str
  | .dispatch _ n _ _ => n
  | .delete n => n

/-- Whether an event is a file-removal attempt. -/
def Ev.isDelete : Ev → Bool
  | .dispatch _ _ _ _ => false
  | .delete _ => true

/-- Forget whether an action invocation succeeded: the event log modulo
action outcomes. The loop's control flow never branches on an action's
success (an exception is caught and only reported), so the log of any
cycle is invariant under this erasure when the action outcomes change. -/
def Ev.eraseOk : Ev → Ev
  | .dispatch t n d _ => .dispatch t n d true
  | .delete n => .delete n

/-- The always-false pattern predicate, used as the out-of-range default
when indexing a trigger list. -/
def pfalse : Str → Bool := fun _ => false

/-- The mutable state of one pass of the trigger loop: the shrinking
working copy `remainingContents`, the multi-match accumulator
`matchedThisIteration`, and the chronological event log. -/
structure CycleState where
  remaining : List Str
  matchedThisIteration : List Str
  events : List Ev
deriving DecidableEq, Repr

/-- WatchMan.run lines 148-164: build `namesAndData` for one trigger's
matches. `readFile name` is `none` when opening or reading the file
raises (the name is then skipped), otherwise the file's contents; a
successful read is parsed by `parseContents`. -/
def namesAndDataOf (readFile : Str → Option Str) (found : List Str) :
    List (Str × List Str) :=
  found.filterMap fun m => (readFile m).map fun contents => (m, parseContents contents)

/-- WatchMan.run lines 166-182: the `for match in allMatches` loop. Each
successfully read match gets one dispatch attempt (an exception from the
action is caught and only reported), and — in single-match mode only — an
immediate removal attempt; in multi-match mode removal is deferred to the
end of the cycle. `actionOk tIdx name` is whether the action invocation
succeeds. -/
def processMatchLoop (canMatchMultiple : Bool) (actionOk : ℕ → Str → Bool)
    (tIdx : ℕ) : List (Str × List Str) → List Ev
  | [] => []
  | (m, d) :: rest =>
      Ev.dispatch tIdx m d (actionOk tIdx m) ::
        ((if canMatchMultiple then [] else [Ev.delete m]) ++
          processMatchLoop canMatchMultiple actionOk tIdx rest)

/-- WatchMan.run lines 132-182: the body of the trigger loop for the
trigger at index `tIdx`, whose `getFilenameMatches` is `getMatches`.
Compute the matches against the remaining working copy; in single-match
mode shrink the working copy by the matches, in multi-match mode add them
to `matchedThisIteration` (a set union, so names already present are not
added again); then read, dispatch and (in single-match mode) remove. -/
def cycleStep (canMatchMultiple : Bool) (readFile : Str → Option Str)
    (actionOk : ℕ → Str → Bool) (getMatches : List Str → List Str)
    (tIdx : ℕ) (st : CycleState) : CycleState :=
  let found := getMatches st.remaining
  { remaining :=
      if canMatchMultiple then st.remaining
      else st.remaining.filter (fun x => decide (x ∉ found)),
    matchedThisIteration :=
      if canMatchMultiple then
        st.matchedThisIteration ++
          found.filter (fun x => decide (x ∉ st.matchedThisIteration))
      else st.matchedThisIteration,
    events :=
      st.events ++
        processMatchLoop canMatchMultiple actionOk tIdx
          (namesAndDataOf readFile found) }

/-- WatchMan.run lines 132-184: the `for trigger in self.triggers` loop,
starting at trigger index `tIdx`. -/
def runTriggers (canMatchMultiple : Bool) (readFile : Str → Option Str)
    (actionOk : ℕ → Str → Bool) :
    List (List Str → List Str) → ℕ → CycleState → CycleState
  | [], _, st => st
  | trig :: rest, tIdx, st =>
      runTriggers canMatchMultiple readFile actionOk rest (tIdx + 1)
        (cycleStep canMatchMultiple readFile actionOk trig tIdx st)

/-- WatchMan.run lines 128-191: one full scan-and-dispatch cycle over the
candidate set `directoryContents` (the regular files listed at the start
of the cycle). After the trigger loop, multi-match mode removes every
name accumulated in `matchedThisIteration`. -/
def runCycle (canMatchMultiple : Bool) (readFile : Str → Option Str)
    (actionOk : ℕ → Str → Bool) (triggers : List (List Str → List Str))
    (directoryContents : List Str) : CycleState :=
  let st := runTriggers canMatchMultiple readFile actionOk triggers 0
    ⟨directoryContents, [], []⟩
  if canMatchMultiple then
    { st with events := st.events ++ st.matchedThisIteration.map Ev.delete }
  else st

/- ### The outer loop and cancellation (WatchMan.run, lines 108 and 193-198) -/

/-- A control location of `WatchMan.run`: the `while self.keepGoing`
check at line 108, a point inside the scan-and-dispatch cycle with `k`
cycle steps left before the sleep phase (lines 110-191, which never read
`keepGoing`), the sleep loop having completed `j` sub-sleeps (lines
193-198), or the exit at line 200. -/
inductive Loc where
  | loopTop
  | inCycle (k : ℕ)
  | sleeping (j : ℕ)
  | done
deriving DecidableEq, Repr

/-- A state of the loop: the control location, and the `keepGoing` flag
(set to false by `die`, and never reset). -/
structure MState where
  loc : Loc
  keepGoing : Bool
deriving DecidableEq, Repr

/-- One discrete step of `WatchMan.run`. `cancel` is whether a
cancellation signal arrives during this step; the flag update is applied
before the location logic, so a check performed at the end of this step
already observes it. `needed` is the number of sub-sleeps until
`timeSlept` reaches `pollTime` (so one sub-sleep is one
`stopCheckInterval`); `cycleLen` abstracts the number of steps of one
scan-and-dispatch cycle. The flag is read ONLY at `loopTop` (line 108)
and after a sub-sleep (line 197), exactly as in the source. -/
def wmStep (cycleLen needed : ℕ) (cancel : Bool) (s : MState) : MState :=
  let kg := s.keepGoing && !cancel
  match s.loc with
  | .loopTop => ⟨if kg then .inCycle cycleLen else .done, kg⟩
  | .inCycle (k + 1) => ⟨.inCycle k, kg⟩
  | .inCycle 0 => ⟨.sleeping 0, kg⟩
  | .sleeping j =>
      ⟨if needed ≤ j then .loopTop
        else if kg then .sleeping (j + 1) else .loopTop, kg⟩
  | .done => ⟨.done, kg⟩

/-- Run `n` steps of the loop under the cancellation schedule `cancel`
(`cancel t` is whether a signal arrives during step `t`). -/
def wmRun (cycleLen needed : ℕ) (cancel : ℕ → Bool) : ℕ → MState → MState
  | 0, s => s
  | n + 1, s =>
      wmRun cycleLen needed (fun t => cancel (t + 1)) n
        (wmStep cycleLen needed (cancel 0) s)

/-! ## Helper lemmas -/

lemma splitNL_cons_newline (rest : Str) :
    splitNL ('\n' :: rest) = [] :: splitNL rest := by
  simp [splitNL]

lemma splitNL_cons_other (c : Char) (rest : Str) (hc : c ≠ '\n')
    (l : Str) (ls : List Str) (h : splitNL rest = l :: ls) :
    splitNL (c :: rest) = (c :: l) :: ls := by
  simp [splitNL, hc, h]

lemma splitNL_ne_nil (s : Str) : splitNL s ≠ [] := by
  match s with
  | [] => simp [splitNL]
  | c :: rest =>
      simp only [splitNL]
      split
      · simp
      · cases h : splitNL rest <;> simp

lemma splitNL_exists_cons (s : Str) : ∃ l ls, splitNL s = l :: ls := by
  cases h : splitNL s with
  | nil => exact absurd h (splitNL_ne_nil s)
  | cons l ls => exact ⟨l, ls, rfl⟩

lemma splitNL_append_newline (t : Str) :
    splitNL (t ++ ['\n']) = splitNL t ++ [[]] := by
  induction t with
  | nil => rfl
  | cons c t ih =>
      rw [List.cons_append]
      by_cases hc : c = '\n'
      · subst hc
        rw [splitNL_cons_newline, splitNL_cons_newline, ih, List.cons_append]
      · obtain ⟨l, ls, hl⟩ := splitNL_exists_cons t
        have h2 : splitNL (t ++ ['\n']) = l :: (ls ++ [[]]) := by
          rw [ih, hl, List.cons_append]
        rw [splitNL_cons_other c _ hc l (ls ++ [[]]) h2,
          splitNL_cons_other c t hc l ls hl, List.cons_append]

lemma splitNL_getLast_ne_nil (s : Str) (hs : s ≠ [])
    (hnl : s.getLast? ≠ some '\n') :
    ∀ l, (splitNL s).getLast? = some l → l ≠ [] := by
  induction s with
  | nil => exact absurd rfl hs
  | cons c rest ih =>
      cases rest with
      | nil =>
          have hc : c ≠ '\n' := by
            intro h; exact hnl (by simp [h])
          intro l hl
          rw [splitNL_cons_other c [] hc [] [] rfl,
            List.getLast?_singleton] at hl
          injection hl with h
          simp [← h]
      | cons d rest' =>
          have hnl' : (d :: rest').getLast? ≠ some '\n' := by
            rwa [List.getLast?_cons_cons] at hnl
          obtain ⟨l0, ls0, hl0⟩ := splitNL_exists_cons (d :: rest')
          intro l hl
          by_cases hc : c = '\n'
          · subst hc
            rw [splitNL_cons_newline, hl0, List.getLast?_cons_cons] at hl
            exact ih (by simp) hnl' l (by rw [hl0]; exact hl)
          · rw [splitNL_cons_other c _ hc l0 ls0 hl0] at hl
            cases ls0 with
            | nil =>
                rw [List.getLast?_singleton] at hl
                injection hl with h
                simp [← h]
            | cons e ls' =>
                rw [List.getLast?_cons_cons] at hl
                refine ih (by simp) hnl' l ?_
                rw [hl0, List.getLast?_cons_cons]
                exact hl

lemma namesAndDataOf_mem {rd : Str → Option Str} {M : List Str}
    {p : Str × List Str} (h : p ∈ namesAndDataOf rd M) :
    p.1 ∈ M ∧ ∃ c, rd p.1 = some c ∧ p.2 = parseContents c := by
  simp only [namesAndDataOf, List.mem_filterMap] at h
  obtain ⟨m, hm, hmap⟩ := h
  obtain ⟨c, hc, hpair⟩ := Option.map_eq_some'.mp hmap
  obtain ⟨h1, h2⟩ := Prod.mk.injEq .. |>.mp hpair.symm
  subst h1
  exact ⟨hm, c, hc, h2⟩

lemma namesAndDataOf_name_mem (rd : Str → Option Str) (M : List Str) {n : Str}
    (h : n ∈ (namesAndDataOf rd M).map Prod.fst) : n ∈ M := by
  obtain ⟨p, hp, rfl⟩ := List.mem_map.mp h
  exact (namesAndDataOf_mem hp).1

lemma namesAndDataOf_name_readable {rd : Str → Option Str} {M : List Str}
    {n : Str} (h : n ∈ (namesAndDataOf rd M).map Prod.fst) : (rd n).isSome := by
  obtain ⟨p, hp, rfl⟩ := List.mem_map.mp h
  obtain ⟨_, c, hc, _⟩ := namesAndDataOf_mem hp
  simp [hc]

lemma namesAndDataOf_mem_of {rd : Str → Option Str} {M : List Str} {m c : Str}
    (h : rd m = some c) (hm : m ∈ M) :
    (m, parseContents c) ∈ namesAndDataOf rd M := by
  simp only [namesAndDataOf, List.mem_filterMap]
  exact ⟨m, hm, by simp [h]⟩

lemma namesAndDataOf_fst_nodup {rd : Str → Option Str} {M : List Str}
    (h : M.Nodup) : ((namesAndDataOf rd M).map Prod.fst).Nodup := by
  induction M with
  | nil => simp [namesAndDataOf]
  | cons m M ih =>
      have hm : m ∉ M := (List.nodup_cons.mp h).1
      have hM : M.Nodup := (List.nodup_cons.mp h).2
      cases hc : rd m with
      | none => simpa [namesAndDataOf, List.filterMap_cons, hc] using ih hM
      | some c =>
          simp only [namesAndDataOf, List.filterMap_cons, hc, Option.map_some',
            List.map_cons, List.nodup_cons]
          refine ⟨fun hmem => hm ?_, ih hM⟩
          exact namesAndDataOf_name_mem rd M hmem

lemma processMatchLoop_name_mem {cm : Bool} {ok : ℕ → Str → Bool} {t : ℕ}
    {L : List (Str × List Str)} {e : Ev} (h : e ∈ processMatchLoop cm ok t L) :
    e.name ∈ L.map Prod.fst := by
  induction L with
  | nil => simp [processMatchLoop] at h
  | cons p rest ih =>
      obtain ⟨n, d⟩ := p
      simp only [processMatchLoop, List.mem_cons, List.mem_append] at h
      rcases h with rfl | h
      · simp [Ev.name]
      · rcases h with h | h
        · rcases cm with _ | _
          · simp only [if_neg Bool.false_ne_true, List.mem_singleton] at h
            subst h; simp [Ev.name]
          · simp at h
        · simpa using Or.inr (ih h)

lemma processMatchLoop_dispatch_mem {cm : Bool} {ok : ℕ → Str → Bool} {t : ℕ}
    {L : List (Str × List Str)} {n : Str} {d : List Str} (h : (n, d) ∈ L) :
    Ev.dispatch t n d (ok t n) ∈ processMatchLoop cm ok t L := by
  induction L with
  | nil => simp at h
  | cons p rest ih =>
      obtain ⟨n0, d0⟩ := p
      rcases List.mem_cons.mp h with heq | hmem
      · obtain ⟨h1, h2⟩ := Prod.mk.injEq .. |>.mp heq
        subst h1; subst h2
        simp [processMatchLoop]
      · simp only [processMatchLoop, List.mem_cons, List.mem_append]
        exact Or.inr (Or.inr (ih hmem))

lemma processMatchLoop_true_no_delete {ok : ℕ → Str → Bool} {t : ℕ}
    {L : List (Str × List Str)} {e : Ev} (h : e ∈ processMatchLoop true ok t L) :
    e.isDelete = false := by
  induction L with
  | nil => simp [processMatchLoop] at h
  | cons p rest ih =>
      obtain ⟨n, d⟩ := p
      simp only [processMatchLoop, if_pos rfl, List.nil_append, List.mem_cons] at h
      rcases h with rfl | h
      · rfl
      · exact ih h

lemma processMatchLoop_filter_not_mem {cm : Bool} {ok : ℕ → Str → Bool} {t : ℕ}
    {L : List (Str × List Str)} {m : Str} (h : m ∉ L.map Prod.fst) :
    (processMatchLoop cm ok t L).filter (fun e => e.name == m) = [] := by
  induction L with
  | nil => rfl
  | cons p rest ih =>
      obtain ⟨n, d⟩ := p
      have hn : n ≠ m := by
        intro hnm; exact h (by simp [hnm])
      have hrest : m ∉ rest.map Prod.fst := by
        intro hm; exact h (by simp [hm])
      have hb : ((Ev.dispatch t n d (ok t n)).name == m) = false := by
        simp [Ev.name, hn]
      have hbd : ((Ev.delete n).name == m) = false := by
        simp [Ev.name, hn]
      rcases cm with _ | _ <;>
        simp [processMatchLoop, List.filter_cons, List.filter_append, hb, hbd,
          ih hrest]

lemma processMatchLoop_filter_mem (ok : ℕ → Str → Bool) (t : ℕ)
    {L : List (Str × List Str)} {m : Str} {d : List Str}
    (hnd : (L.map Prod.fst).Nodup) (h : (m, d) ∈ L) :
    (processMatchLoop false ok t L).filter (fun e => e.name == m) =
      [Ev.dispatch t m d (ok t m), Ev.delete m] := by
  induction L with
  | nil => simp at h
  | cons p rest ih =>
      obtain ⟨n, d0⟩ := p
      have hn0 : n ∉ rest.map Prod.fst := (List.nodup_cons.mp (by simpa using hnd)).1
      have hndrest : (rest.map Prod.fst).Nodup := (List.nodup_cons.mp (by simpa using hnd)).2
      rcases List.mem_cons.mp h with heq | hmem
      · obtain ⟨h1, h2⟩ := Prod.mk.injEq .. |>.mp heq
        subst h1; subst h2
        have hb : ((Ev.dispatch t m d (ok t m)).name == m) = true := by
          simp [Ev.name]
        have hbd : ((Ev.delete m).name == m) = true := by
          simp [Ev.name]
        simp only [processMatchLoop, if_neg Bool.false_ne_true, List.filter_cons,
          hb, List.filter_append, List.filter_cons, hbd, List.filter_nil,
          processMatchLoop_filter_not_mem hn0]
        rfl
      · have hnm : n ≠ m := by
          intro hnm; subst hnm
          exact hn0 (by simpa using ⟨d, hmem⟩)
        have hb : ((Ev.dispatch t n d0 (ok t n)).name == m) = false := by
          simp [Ev.name, hnm]
        have hbd : ((Ev.delete n).name == m) = false := by
          simp [Ev.name, hnm]
        simp only [processMatchLoop, if_neg Bool.false_ne_true, List.filter_cons,
          hb, List.filter_append, List.filter_cons, hbd, List.filter_nil,
          ih hndrest hmem]
        rfl

lemma processMatchLoop_eraseOk {cm : Bool} {t : ℕ}
    (ok1 ok2 : ℕ → Str → Bool) (L : List (Str × List Str)) :
    (processMatchLoop cm ok1 t L).map Ev.eraseOk =
      (processMatchLoop cm ok2 t L).map Ev.eraseOk := by
  induction L with
  | nil => rfl
  | cons p rest ih =>
      obtain ⟨n, d⟩ := p
      simp only [processMatchLoop, List.map_cons, List.map_append, ih, Ev.eraseOk]

lemma cycleStep_remaining (cm : Bool) (rd : Str → Option Str)
    (ok : ℕ → Str → Bool) (g : List Str → List Str) (t : ℕ) (st : CycleState) :
    (cycleStep cm rd ok g t st).remaining =
      if cm then st.remaining
      else st.remaining.filter (fun x => decide (x ∉ g st.remaining)) := rfl

lemma cycleStep_matched (cm : Bool) (rd : Str → Option Str)
    (ok : ℕ → Str → Bool) (g : List Str → List Str) (t : ℕ) (st : CycleState) :
    (cycleStep cm rd ok g t st).matchedThisIteration =
      if cm then
        st.matchedThisIteration ++
          (g st.remaining).filter (fun x => decide (x ∉ st.matchedThisIteration))
      else st.matchedThisIteration := rfl

lemma cycleStep_events (cm : Bool) (rd : Str → Option Str)
    (ok : ℕ → Str → Bool) (g : List Str → List Str) (t : ℕ) (st : CycleState) :
    (cycleStep cm rd ok g t st).events =
      st.events ++
        processMatchLoop cm ok t (namesAndDataOf rd (g st.remaining)) := rfl

lemma cycleStep_matched_multi (rd : Str → Option Str) (ok : ℕ → Str → Bool)
    (g : List Str → List Str) (t : ℕ) (st : CycleState) :
    (cycleStep true rd ok g t st).matchedThisIteration =
      st.matchedThisIteration ++
        (g st.remaining).filter (fun x => decide (x ∉ st.matchedThisIteration)) := rfl

lemma cycleStep_remaining_multi (rd : Str → Option Str) (ok : ℕ → Str → Bool)
    (g : List Str → List Str) (t : ℕ) (st : CycleState) :
    (cycleStep true rd ok g t st).remaining = st.remaining := rfl

lemma runTriggers_events_mono {cm : Bool} {rd : Str → Option Str}
    {ok : ℕ → Str → Bool} :
    ∀ (trigs : List (List Str → List Str)) (t : ℕ) (st : CycleState) {e : Ev},
      e ∈ st.events → e ∈ (runTriggers cm rd ok trigs t st).events := by
  intro trigs
  induction trigs with
  | nil => intro t st e h; simpa [runTriggers] using h
  | cons g rest ih =>
      intro t st e h
      simp only [runTriggers]
      refine ih _ _ ?_
      rw [cycleStep_events]
      exact List.mem_append_left _ h

lemma runTriggers_new_events_readable {cm : Bool} {rd : Str → Option Str}
    {ok : ℕ → Str → Bool} :
    ∀ (trigs : List (List Str → List Str)) (t : ℕ) (st : CycleState) {e : Ev},
      e ∈ (runTriggers cm rd ok trigs t st).events →
      e ∈ st.events ∨ (rd e.name).isSome := by
  intro trigs
  induction trigs with
  | nil => intro t st e h; exact Or.inl (by simpa [runTriggers] using h)
  | cons g rest ih =>
      intro t st e h
      rcases ih _ _ (by simpa [runTriggers] using h) with h2 | h2
      · rw [cycleStep_events] at h2
        rcases List.mem_append.mp h2 with h3 | h3
        · exact Or.inl h3
        · exact Or.inr (namesAndDataOf_name_readable (processMatchLoop_name_mem h3))
      · exact Or.inr h2

lemma runTriggers_multi_remaining {rd : Str → Option Str}
    {ok : ℕ → Str → Bool} :
    ∀ (trigs : List (List Str → List Str)) (t : ℕ) (st : CycleState),
      (runTriggers true rd ok trigs t st).remaining = st.remaining := by
  intro trigs
  induction trigs with
  | nil => intro t st; rfl
  | cons g rest ih =>
      intro t st
      simp only [runTriggers]
      rw [ih, cycleStep_remaining]
      simp

lemma runTriggers_multi_no_delete {rd : Str → Option Str}
    {ok : ℕ → Str → Bool} :
    ∀ (trigs : List (List Str → List Str)) (t : ℕ) (st : CycleState) {e : Ev},
      e ∈ (runTriggers true rd ok trigs t st).events →
      e ∈ st.events ∨ e.isDelete = false := by
  intro trigs
  induction trigs with
  | nil => intro t st e h; exact Or.inl (by simpa [runTriggers] using h)
  | cons g rest ih =>
      intro t st e h
      rcases ih _ _ (by simpa [runTriggers] using h) with h2 | h2
      · rw [cycleStep_events] at h2
        rcases List.mem_append.mp h2 with h3 | h3
        · exact Or.inl h3
        · exact Or.inr (processMatchLoop_true_no_delete h3)
      · exact Or.inr h2

lemma runTriggers_single_not_in_remaining {rd : Str → Option Str}
    {ok : ℕ → Str → Bool} {m : Str} :
    ∀ (preds : List (Str → Bool)) (t : ℕ) (st : CycleState), m ∉ st.remaining →
      (runTriggers false rd ok (preds.map reGetFilenameMatches) t st).events.filter
          (fun e => e.name == m)
        = st.events.filter (fun e => e.name == m) ∧
      m ∉ (runTriggers false rd ok (preds.map reGetFilenameMatches) t st).remaining := by
  intro preds
  induction preds with
  | nil => intro t st h; exact ⟨rfl, h⟩
  | cons p rest ih =>
      intro t st h
      have hnotfound : m ∉ st.remaining.filter p := fun hmem =>
        h (List.mem_of_mem_filter hmem)
      have hnotrem : m ∉ (cycleStep false rd ok (reGetFilenameMatches p) t st).remaining := by
        rw [cycleStep_remaining]
        simp only [if_neg Bool.false_ne_true]
        intro hmem
        exact h (List.mem_of_mem_filter hmem)
      have hnotnames : m ∉ (namesAndDataOf rd (st.remaining.filter p)).map Prod.fst :=
        fun hmem => hnotfound (namesAndDataOf_name_mem _ _ hmem)
      obtain ⟨h1, h2⟩ := ih (t + 1) _ hnotrem
      simp only [List.map_cons, runTriggers]
      refine ⟨?_, h2⟩
      rw [h1, cycleStep_events, List.filter_append]
      simp only [reGetFilenameMatches]
      rw [processMatchLoop_filter_not_mem hnotnames, List.append_nil]

lemma runTriggers_single_first_wins {rd : Str → Option Str}
    (ok : ℕ → Str → Bool) {m cs : Str} (hrd : rd m = some cs) :
    ∀ (preds : List (Str → Bool)) (i t : ℕ) (st : CycleState),
      m ∈ st.remaining → st.remaining.Nodup →
      i < preds.length → (preds.getD i pfalse) m = true →
      (∀ j, j < i → (preds.getD j pfalse) m = false) →
      (runTriggers false rd ok (preds.map reGetFilenameMatches) t st).events.filter
          (fun e => e.name == m)
        = st.events.filter (fun e => e.name == m) ++
          [Ev.dispatch (t + i) m (parseContents cs) (ok (t + i) m), Ev.delete m] := by
  intro preds
  induction preds with
  | nil => intro i t st _ _ hi _ _; simp at hi
  | cons p rest ih =>
      intro i t st hm hnd hi hp hleast
      simp only [List.map_cons, runTriggers]
      cases i with
      | zero =>
          have hpm : p m = true := by simpa using hp
          have hmfound : m ∈ st.remaining.filter p := List.mem_filter.mpr ⟨hm, hpm⟩
          have hfnd : (st.remaining.filter p).Nodup := hnd.filter p
          have hpair := namesAndDataOf_mem_of hrd hmfound
          have hfilter := processMatchLoop_filter_mem ok t
            (namesAndDataOf_fst_nodup hfnd) hpair
          have hnotrem : m ∉ (cycleStep false rd ok (reGetFilenameMatches p) t st).remaining := by
            rw [cycleStep_remaining]
            intro hmem
            simp only [if_neg Bool.false_ne_true] at hmem
            exact (of_decide_eq_true (List.mem_filter.mp hmem).2) hmfound
          rw [(runTriggers_single_not_in_remaining rest (t + 1) _ hnotrem).1,
            cycleStep_events, List.filter_append]
          simp only [reGetFilenameMatches]
          rw [hfilter, Nat.add_zero]
      | succ i' =>
          have hp0 : p m = false := by simpa using hleast 0 (Nat.succ_pos i')
          have hmnotfound : m ∉ st.remaining.filter p := by
            intro hmem
            have := (List.mem_filter.mp hmem).2
            rw [hp0] at this
            exact Bool.false_ne_true this
          have hmrem : m ∈ (cycleStep false rd ok (reGetFilenameMatches p) t st).remaining := by
            rw [cycleStep_remaining]
            simp only [if_neg Bool.false_ne_true]
            exact List.mem_filter.mpr ⟨hm, decide_eq_true hmnotfound⟩
          have hnd' : (cycleStep false rd ok (reGetFilenameMatches p) t st).remaining.Nodup := by
            rw [cycleStep_remaining]
            simp only [if_neg Bool.false_ne_true]
            exact hnd.filter _
          have hnotnames : m ∉ (namesAndDataOf rd (st.remaining.filter p)).map Prod.fst :=
            fun hmem => hmnotfound (namesAndDataOf_name_mem _ _ hmem)
          have hrec := ih i' (t + 1) _ hmrem hnd'
            (by simpa using Nat.succ_lt_succ_iff.mp hi)
            (by simpa using hp)
            (fun j hj => by simpa using hleast (j + 1) (Nat.succ_lt_succ hj))
          rw [hrec, cycleStep_events, List.filter_append]
          simp only [reGetFilenameMatches]
          rw [processMatchLoop_filter_not_mem hnotnames, List.append_nil]
          have harith : t + 1 + i' = t + (i' + 1) := by omega
          rw [harith]

lemma runCycle_single (rd : Str → Option Str) (ok : ℕ → Str → Bool)
    (trigs : List (List Str → List Str)) (contents : List Str) :
    runCycle false rd ok trigs contents =
      runTriggers false rd ok trigs 0 ⟨contents, [], []⟩ := rfl

lemma runCycle_multi (rd : Str → Option Str) (ok : ℕ → Str → Bool)
    (trigs : List (List Str → List Str)) (contents : List Str) :
    runCycle true rd ok trigs contents =
      { runTriggers true rd ok trigs 0 ⟨contents, [], []⟩ with
        events := (runTriggers true rd ok trigs 0 ⟨contents, [], []⟩).events ++
          (runTriggers true rd ok trigs 0 ⟨contents, [], []⟩).matchedThisIteration.map
            Ev.delete } := rfl

lemma ev_delete_injective : Function.Injective Ev.delete := by
  intro a b h
  injection h

lemma exists_getD_cons (p : Str → Bool) (rest : List (Str → Bool)) (m : Str) :
    (∃ i, i < (p :: rest).length ∧ ((p :: rest).getD i pfalse) m = true) ↔
      (p m = true ∨ ∃ i, i < rest.length ∧ (rest.getD i pfalse) m = true) := by
  constructor
  · rintro ⟨i, hi, h⟩
    cases i with
    | zero => exact Or.inl (by simpa using h)
    | succ i' =>
        exact Or.inr ⟨i', Nat.succ_lt_succ_iff.mp (by simpa using hi),
          by simpa using h⟩
  · rintro (h | ⟨i, hi, h⟩)
    · exact ⟨0, Nat.succ_pos _, by simpa using h⟩
    · exact ⟨i + 1, by simpa using Nat.succ_lt_succ hi, by simpa using h⟩

lemma runTriggers_multi_dispatch_complete {rd : Str → Option Str}
    {ok : ℕ → Str → Bool} {m cs : Str} (hrd : rd m = some cs) :
    ∀ (preds : List (Str → Bool)) (i t : ℕ) (st : CycleState),
      m ∈ st.remaining → i < preds.length → (preds.getD i pfalse) m = true →
      Ev.dispatch (t + i) m (parseContents cs) (ok (t + i) m) ∈
        (runTriggers true rd ok (preds.map reGetFilenameMatches) t st).events := by
  intro preds
  induction preds with
  | nil => intro i t st _ hi _; simp at hi
  | cons p rest ih =>
      intro i t st hm hi hp
      simp only [List.map_cons, runTriggers]
      cases i with
      | zero =>
          have hpm : p m = true := by simpa using hp
          have hmfound : m ∈ st.remaining.filter p := List.mem_filter.mpr ⟨hm, hpm⟩
          have hpair := namesAndDataOf_mem_of hrd hmfound
          refine runTriggers_events_mono _ _ _ ?_
          rw [cycleStep_events]
          refine List.mem_append_right _ ?_
          rw [Nat.add_zero]
          exact processMatchLoop_dispatch_mem hpair
      | succ i' =>
          have hmrem : m ∈ (cycleStep true rd ok (reGetFilenameMatches p) t st).remaining := by
            rw [cycleStep_remaining_multi]; exact hm
          have hrec := ih i' (t + 1) _ hmrem
            (by simpa using Nat.succ_lt_succ_iff.mp hi) (by simpa using hp)
          have harith : t + 1 + i' = t + (i' + 1) := by omega
          rw [harith] at hrec
          exact hrec

lemma runTriggers_multi_matched_iff {rd : Str → Option Str}
    {ok : ℕ → Str → Bool} {m : Str} :
    ∀ (preds : List (Str → Bool)) (t : ℕ) (st : CycleState), m ∈ st.remaining →
      (m ∈ (runTriggers true rd ok (preds.map reGetFilenameMatches) t st).matchedThisIteration ↔
        (m ∈ st.matchedThisIteration ∨
          ∃ i, i < preds.length ∧ (preds.getD i pfalse) m = true)) := by
  intro preds
  induction preds with
  | nil =>
      intro t st _
      simp [runTriggers]
  | cons p rest ih =>
      intro t st hm
      have hmrem : m ∈ (cycleStep true rd ok (reGetFilenameMatches p) t st).remaining := by
        rw [cycleStep_remaining_multi]; exact hm
      simp only [List.map_cons, runTriggers]
      rw [ih (t + 1) _ hmrem, exists_getD_cons, cycleStep_matched_multi]
      simp only [List.mem_append, List.mem_filter, reGetFilenameMatches]
      constructor
      · rintro ((h | ⟨⟨_, hpm⟩, _⟩) | h)
        · exact Or.inl h
        · exact Or.inr (Or.inl hpm)
        · exact Or.inr (Or.inr h)
      · rintro (h | (h | h))
        · exact Or.inl (Or.inl h)
        · by_cases hmatched : m ∈ st.matchedThisIteration
          · exact Or.inl (Or.inl hmatched)
          · exact Or.inl (Or.inr ⟨⟨hm, h⟩, decide_eq_true hmatched⟩)
        · exact Or.inr h

lemma runTriggers_multi_matched_nodup {rd : Str → Option Str}
    {ok : ℕ → Str → Bool} :
    ∀ (preds : List (Str → Bool)) (t : ℕ) (st : CycleState),
      st.remaining.Nodup → st.matchedThisIteration.Nodup →
      (runTriggers true rd ok (preds.map reGetFilenameMatches) t st).matchedThisIteration.Nodup := by
  intro preds
  induction preds with
  | nil => intro t st _ h; exact h
  | cons p rest ih =>
      intro t st hrem hmatched
      simp only [List.map_cons, runTriggers]
      refine ih (t + 1) _ ?_ ?_
      · rw [cycleStep_remaining_multi]; exact hrem
      · rw [cycleStep_matched_multi]
        simp only [reGetFilenameMatches]
        refine hmatched.append ((hrem.filter p).filter _) ?_
        intro x hx1 hx2
        exact (of_decide_eq_true (List.mem_filter.mp hx2).2) hx1

lemma runTriggers_actionOk_independent (cm : Bool) {rd : Str → Option Str}
    (ok1 ok2 : ℕ → Str → Bool) :
    ∀ (trigs : List (List Str → List Str)) (t : ℕ) (st1 st2 : CycleState),
      st1.remaining = st2.remaining →
      st1.matchedThisIteration = st2.matchedThisIteration →
      st1.events.map Ev.eraseOk = st2.events.map Ev.eraseOk →
      (runTriggers cm rd ok1 trigs t st1).remaining =
        (runTriggers cm rd ok2 trigs t st2).remaining ∧
      (runTriggers cm rd ok1 trigs t st1).matchedThisIteration =
        (runTriggers cm rd ok2 trigs t st2).matchedThisIteration ∧
      (runTriggers cm rd ok1 trigs t st1).events.map Ev.eraseOk =
        (runTriggers cm rd ok2 trigs t st2).events.map Ev.eraseOk := by
  intro trigs
  induction trigs with
  | nil => intro t st1 st2 h1 h2 h3; exact ⟨h1, h2, h3⟩
  | cons g rest ih =>
      intro t st1 st2 h1 h2 h3
      simp only [runTriggers]
      refine ih (t + 1) _ _ ?_ ?_ ?_
      · rw [cycleStep_remaining, cycleStep_remaining, h1]
      · rw [cycleStep_matched, cycleStep_matched, h1, h2]
      · rw [cycleStep_events, cycleStep_events, List.map_append, List.map_append,
          h1, h3, processMatchLoop_eraseOk ok1 ok2]

/-! ## Claims -/

/-- C1. The claim says: a glob pattern passing the generic checks
constructs successfully whenever it contains a wildcard ANYWHERE, and
fails exactly when it contains none; in particular pattern a-star-dot-txt
constructs. The code instead uses `validGlobRE.match`, which anchors at
position 0, so that very pattern is rejected although it contains a
wildcard (and although the raised message claims it contains neither
wildcard): the claim describes the intent, the code is a slip. -/
theorem glob_wildcard_validation_code_bug :
    ('*' ∈ ("a*.txt".toList)) ∧
    genericValidatePattern (.str ("a*.txt".toList)) false = .ok none ∧
    triggerGlobValidatePattern ("a*.txt".toList) =
      .ok (some .globNoWildcard) ∧
    triggerGlobValidatePattern ("*.txt".toList) = .ok none := by
  exact ⟨by decide, rfl, rfl, rfl⟩

/-- C6. Parsing a matched file's contents into the action's line list:
the two concrete examples and the empty file; whitespace-only contents
yield an empty list; otherwise, when the contents end in a newline the
split has exactly one trailing empty entry, which is removed (every other
entry preserved); and when they do not end in a newline nothing is
removed from the split. -/
theorem parse_contents_spec :
    (parseContents ("line1\nline2\n".toList) =
      ["line1".toList, "line2".toList]) ∧
    (parseContents ("line1\nline2".toList) =
      ["line1".toList, "line2".toList]) ∧
    (parseContents [] = []) ∧
    (∀ s : Str, s.all pyIsSpace → parseContents s = []) ∧
    (∀ s : Str, hasNonSpace s → s.getLast? = some '\n' →
      splitNL s = splitNL s.dropLast ++ [[]] ∧
      parseContents s = splitNL s.dropLast) ∧
    (∀ s : Str, hasNonSpace s → s.getLast? ≠ some '\n' →
      parseContents s = splitNL s) := by
  refine ⟨by decide, by decide, by decide, ?_, ?_, ?_⟩
  · intro s hall
    have h : hasNonSpace s = false := by
      simp only [hasNonSpace, List.any_eq_false]
      intro c hc
      simp only [List.all_eq_true] at hall
      simp [hall c hc]
    simp [parseContents, h]
  · intro s hns hlast
    have hne : s ≠ [] := by
      intro h; subst h; simp at hlast
    have hget : s.getLast hne = '\n' := by
      have := List.getLast?_eq_getLast s hne
      rw [this] at hlast
      exact (Option.some.injEq _ _).mp hlast.symm |>.symm
    have hsplit : s = s.dropLast ++ ['\n'] := by
      conv_lhs => rw [← List.dropLast_append_getLast hne]
      rw [hget]
    have hkey : splitNL s = splitNL s.dropLast ++ [[]] := by
      conv_lhs => rw [hsplit]
      exact splitNL_append_newline _
    refine ⟨hkey, ?_⟩
    simp only [parseContents, hns, if_true, hkey]
    rw [List.getLast?_concat, List.dropLast_concat]
    simp
  · intro s hns hlast
    have hne : s ≠ [] := by
      intro h; subst h; simp [hasNonSpace] at hns
    obtain ⟨l, hl⟩ : ∃ l, (splitNL s).getLast? = some l := by
      cases h : splitNL s with
      | nil => exact absurd h (splitNL_ne_nil s)
      | cons a b => exact ⟨(a :: b).getLast (by simp), List.getLast?_eq_getLast _ _⟩
    have hlne : l ≠ [] := splitNL_getLast_ne_nil s hne hlast l hl
    simp [parseContents, hns, hl, hlne]

/-- C6 witness: the general non-newline-terminated clause of the parse
theorem evaluated at a concrete input. -/
theorem parse_contents_spec_witness :
    parseContents ("a\nb".toList) = splitNL ("a\nb".toList) :=
  parse_contents_spec.2.2.2.2.2 ("a\nb".toList) (by decide) (by decide)

/-- C10. During construction exactly one trailing slash is stripped from
rootDir, and only then is the empty string replaced by a dot; hence a
rootDir of a single slash is rewritten to a dot (the current working
directory), and a name without a trailing slash is left unchanged. -/
theorem root_dir_normalization :
    (normalizeRootDir ['/'] = ['.']) ∧
    (∀ s : Str, normalizeRootDir (s ++ ['/']) =
      if s.isEmpty then ['.'] else s) ∧
    (∀ s : Str, s ≠ [] → s.getLast? ≠ some '/' → normalizeRootDir s = s) := by
  refine ⟨by decide, ?_, ?_⟩
  · intro s
    simp only [normalizeRootDir, List.getLast?_concat, if_pos rfl,
      List.dropLast_concat]
    cases s <;> simp
  · intro s hne hlast
    simp only [normalizeRootDir, if_neg hlast]
    have : s.length ≠ 0 := by
      intro h; exact hne (List.eq_nil_of_length_eq_zero h)
    simp [this]

/-- C10 witness: the no-trailing-slash clause at a concrete directory
name. -/
theorem root_dir_normalization_witness :
    normalizeRootDir ("ab".toList) = "ab".toList :=
  root_dir_normalization.2.2 ("ab".toList) (by decide) (by decide)

/-- C8. The claim says constructing a TriggerRE from an already-compiled
regular expression succeeds with the expression stored unchanged. The
allowed-types tuple, the docstring and the pass-through branch of
`TriggerRE._processPattern` all show this is the intent, but the generic
validator then evaluates `allDotsRE.match(theString)` on the compiled
pattern object, and the `re` module raises `TypeError` for any non-string
argument, so construction always fails instead. -/
theorem compiled_re_construction_type_error :
    ∀ s : Str, triggerREConstruct (.compiled s) = .error .typeError := by
  intro s
  rfl

/-- C7 counterexample. With stored pattern the lower-casing of Readme and
the two distinct candidates Readme and README — both case-insensitively
equal to the pattern — the batch match returns only the first, not both
as the claim states. -/
theorem case_insensitive_first_only_counterexample :
    caseInsensitiveGetFilenameMatches
        (caseInsensitiveProcessPattern ("Readme".toList))
        ["Readme".toList, "README".toList] = ["Readme".toList] ∧
    ("README".toList).map Char.toLower =
      caseInsensitiveProcessPattern ("Readme".toList) ∧
    "README".toList ≠ "Readme".toList := by
  refine ⟨by decide, by decide, by decide⟩

/-- C7 as amended: the case-insensitive trigger's batch match returns AT
MOST ONE name — the first candidate (in scan order) whose lower-cased
form equals the stored lower-cased pattern — and the empty list when no
candidate matches; later case-insensitively equal candidates are not
returned. -/
theorem case_insensitive_first_match_amended :
    ∀ (pattern : Str) (directoryContents : List Str),
      caseInsensitiveGetFilenameMatches pattern directoryContents =
        match directoryContents.find? (fun i => i.map Char.toLower == pattern) with
        | some i => [i]
        | none => [] := by
  intro pattern directoryContents
  induction directoryContents with
  | nil => rfl
  | cons item rest ih =>
      by_cases h : item.map Char.toLower = pattern
      · rw [List.find?_cons_of_pos rest (by simp [h])]
        simp [caseInsensitiveGetFilenameMatches, h]
      · rw [List.find?_cons_of_neg rest (by simp [h])]
        simp only [caseInsensitiveGetFilenameMatches, if_neg h, ih]

/-- Helper for C9: a scan-and-dispatch cycle runs to completion no matter
what cancellation signals arrive: from a point with `k` cycle steps left,
after `j ≤ k` steps the machine is still inside the cycle. -/
lemma wmRun_inCycle (cycleLen needed : ℕ) :
    ∀ (j k : ℕ) (cancel : ℕ → Bool) (kg : Bool), j ≤ k →
      (wmRun cycleLen needed cancel j ⟨.inCycle k, kg⟩).loc = .inCycle (k - j) := by
  intro j
  induction j with
  | zero => intro k cancel kg _; simp [wmRun]
  | succ j ih =>
      intro k cancel kg hjk
      match k, hjk with
      | k + 1, hjk =>
          have : (wmStep cycleLen needed (cancel 0) ⟨.inCycle (k + 1), kg⟩) =
              ⟨.inCycle k, kg && !(cancel 0)⟩ := rfl
          rw [wmRun, this, ih k _ _ (Nat.succ_le_succ_iff.mp hjk)]
          congr 1
          omega

/-- Helper for C9: from a point with `k` cycle steps left, after exactly
`k + 1` steps the machine has completed the cycle and entered the sleep
phase — again regardless of the cancellation schedule. -/
lemma wmRun_cycle_completes (cycleLen needed : ℕ) :
    ∀ (k : ℕ) (cancel : ℕ → Bool) (kg : Bool),
      (wmRun cycleLen needed cancel (k + 1) ⟨.inCycle k, kg⟩).loc = .sleeping 0 := by
  intro k
  induction k with
  | zero => intro cancel kg; rfl
  | succ k ih =>
      intro cancel kg
      rw [wmRun]
      exact ih _ _

/-- C9. Once a scan-and-dispatch cycle has started, the cancellation flag
is never observed until the cycle completes and the sleep phase is
entered (for every cancellation schedule); and a cancellation in effect
during a sub-sleep of the sleep phase is observed at the check right
after that sub-sleep — the sleep loop exits to the top of the outer loop
within that one `stopCheckInterval` sub-sleep, and one step later the
loop has exited instead of starting another cycle. -/
theorem cancellation_granularity (cycleLen needed : ℕ) :
    (∀ (j k : ℕ) (cancel : ℕ → Bool) (kg : Bool), j ≤ k →
      (wmRun cycleLen needed cancel j ⟨.inCycle k, kg⟩).loc = .inCycle (k - j)) ∧
    (∀ (k : ℕ) (cancel : ℕ → Bool) (kg : Bool),
      (wmRun cycleLen needed cancel (k + 1) ⟨.inCycle k, kg⟩).loc = .sleeping 0) ∧
    (∀ (j : ℕ) (cancel : ℕ → Bool) (kg : Bool), j < needed →
      (kg && !(cancel 0)) = false →
      (wmRun cycleLen needed cancel 1 ⟨.sleeping j, kg⟩).loc = .loopTop ∧
      (wmRun cycleLen needed cancel 2 ⟨.sleeping j, kg⟩).loc = .done) := by
  refine ⟨wmRun_inCycle cycleLen needed, wmRun_cycle_completes cycleLen needed, ?_⟩
  intro j cancel kg hj hkg
  have hstep : wmStep cycleLen needed (cancel 0) ⟨.sleeping j, kg⟩ =
      ⟨.loopTop, false⟩ := by
    simp only [wmStep, hkg]
    have : ¬ needed ≤ j := by omega
    simp [this]
  constructor
  · rw [wmRun, hstep]; rfl
  · rw [wmRun, hstep, wmRun]
    have : wmStep cycleLen needed (cancel 1) ⟨.loopTop, false⟩ = ⟨.done, false⟩ := rfl
    rw [this]; rfl

/-- C9 witness: the machine with a 3-step cycle and 4 sub-sleeps per
poll, a cancellation signal arriving at every step. -/
theorem cancellation_granularity_witness :
    (wmRun 3 4 (fun _ => true) 2 ⟨.inCycle 3, true⟩).loc = .inCycle 1 ∧
    (wmRun 3 4 (fun _ => true) 4 ⟨.inCycle 3, true⟩).loc = .sleeping 0 ∧
    (wmRun 3 4 (fun _ => true) 1 ⟨.sleeping 1, true⟩).loc = .loopTop ∧
    (wmRun 3 4 (fun _ => true) 2 ⟨.sleeping 1, true⟩).loc = .done := by
  obtain ⟨h1, h2, h3⟩ := cancellation_granularity 3 4
  refine ⟨h1 2 3 (fun _ => true) true (by decide), h2 3 (fun _ => true) true, ?_, ?_⟩
  · exact (h3 1 (fun _ => true) true (by decide) (by decide)).1
  · exact (h3 1 (fun _ => true) true (by decide) (by decide)).2

/-- C2 counterexample. The claim says that IN BOTH MODES a matched file
whose read fails is not deleted. In multi-match mode the accumulator
`matchedThisIteration` receives every matched name before the read is
attempted, and the end-of-cycle sweep deletes everything in it, so a
matched file whose read failed IS deleted: one trigger exactly matching a
file whose read always fails produces exactly one removal attempt for
it. -/
theorem read_failure_deleted_in_multi_match_counterexample :
    (runCycle true (fun _ => none) (fun _ _ => true)
        [exactGetFilenameMatches ("a".toList)] [("a".toList)]).events
      = [Ev.delete ("a".toList)] := rfl

/-- C2 as amended: in every scan cycle and in both modes, a matched file
whose read fails gets no action dispatched for it this cycle; in
single-match mode it is additionally never deleted, so it reappears in
the next cycle's candidate set; in multi-match mode, however, the file is
deleted by the end-of-cycle sweep despite the failed read. -/
theorem read_failure_skip_amended
    (cm : Bool) (rd : Str → Option Str) (ok : ℕ → Str → Bool)
    (trigs : List (List Str → List Str)) (contents : List Str) (m : Str)
    (hrd : rd m = none) :
    (∀ (t : ℕ) (d : List Str) (b : Bool),
      Ev.dispatch t m d b ∉ (runCycle cm rd ok trigs contents).events) ∧
    (cm = false → Ev.delete m ∉ (runCycle cm rd ok trigs contents).events) := by
  have hread : ∀ e : Ev, e.name = m → ¬ (rd e.name).isSome := by
    intro e he
    rw [he, hrd]
    simp
  constructor
  · intro t d b hmem
    cases cm with
    | false =>
        rw [runCycle_single] at hmem
        rcases runTriggers_new_events_readable trigs 0 _ hmem with h | h
        · simp at h
        · exact hread (Ev.dispatch t m d b) rfl h
    | true =>
        rw [runCycle_multi] at hmem
        rcases List.mem_append.mp hmem with h | h
        · rcases runTriggers_new_events_readable trigs 0 _ h with h2 | h2
          · simp at h2
          · exact hread (Ev.dispatch t m d b) rfl h2
        · obtain ⟨n, _, heq⟩ := List.mem_map.mp h
          exact Ev.noConfusion heq
  · intro hcm hmem
    subst hcm
    rw [runCycle_single] at hmem
    rcases runTriggers_new_events_readable trigs 0 _ hmem with h | h
    · simp at h
    · exact hread (Ev.delete m) rfl h

/-- C2 witness for the amended claim: in single-match mode, one trigger
exactly matching a file whose read fails never deletes it. -/
theorem read_failure_skip_amended_witness :
    Ev.delete ("a".toList) ∉
      (runCycle false (fun _ => none) (fun _ _ => true)
        [exactGetFilenameMatches ("a".toList)] [("a".toList)]).events :=
  (read_failure_skip_amended false (fun _ => none) (fun _ _ => true)
    [exactGetFilenameMatches ("a".toList)] [("a".toList)] ("a".toList) rfl).2 rfl

/-- C3. In single-match mode, when the trigger at index `i` is the
earliest whose pattern matches the readable file `m`, the cycle's event
log restricted to `m` is exactly one dispatch attempt — by trigger `i`,
with the parsed file contents — followed by exactly one removal attempt:
no later trigger ever sees or dispatches `m`, and the file is deleted
exactly once. -/
theorem single_match_first_trigger_wins
    (preds : List (Str → Bool)) (rd : Str → Option Str) (ok : ℕ → Str → Bool)
    (contents : List Str) (m cs : Str) (i : ℕ)
    (hnd : contents.Nodup) (hm : m ∈ contents) (hrd : rd m = some cs)
    (hi : i < preds.length) (hp : (preds.getD i pfalse) m = true)
    (hleast : ∀ j, j < i → (preds.getD j pfalse) m = false) :
    (runCycle false rd ok (preds.map reGetFilenameMatches) contents).events.filter
        (fun e => e.name == m)
      = [Ev.dispatch i m (parseContents cs) (ok i m), Ev.delete m] := by
  have h := runTriggers_single_first_wins ok hrd preds i 0 ⟨contents, [], []⟩
    hm hnd hi hp hleast
  rw [runCycle_single]
  simpa using h

/-- C3 witness: two triggers with the same prefix pattern both matching
the one file; only the first (index 0) dispatches, and exactly one
removal attempt follows. -/
theorem single_match_first_trigger_wins_witness :
    (runCycle false (fun _ => some ("x\ny\n".toList)) (fun _ _ => true)
        ([fun s => s.take 1 == ['a'], fun s => s.take 1 == ['a']].map
          reGetFilenameMatches) [("a1".toList)]).events.filter
        (fun e => e.name == ("a1".toList))
      = [Ev.dispatch 0 ("a1".toList) (parseContents ("x\ny\n".toList)) true,
         Ev.delete ("a1".toList)] :=
  single_match_first_trigger_wins
    [fun s => s.take 1 == ['a'], fun s => s.take 1 == ['a']]
    (fun _ => some ("x\ny\n".toList)) (fun _ _ => true) [("a1".toList)]
    ("a1".toList) ("x\ny\n".toList) 0 (by decide) (by decide) rfl
    (by decide) rfl (fun j hj => absurd hj (Nat.not_lt_zero j))

/-- C4. In multi-match mode with a readable matched file `m`: the working
candidate set is never shrunk during the cycle; EVERY trigger whose
pattern matches `m` gets a dispatch attempt for `m` with the same parsed
line data; the cycle's event log holds exactly one removal attempt for
`m`; and all removal attempts sit after all dispatch attempts in the log
(deletion happens only after all triggers have been processed). -/
theorem multi_match_all_triggers_dispatch
    (preds : List (Str → Bool)) (rd : Str → Option Str) (ok : ℕ → Str → Bool)
    (contents : List Str) (m cs : Str)
    (hnd : contents.Nodup) (hm : m ∈ contents) (hrd : rd m = some cs)
    (hex : ∃ i, i < preds.length ∧ (preds.getD i pfalse) m = true) :
    (runCycle true rd ok (preds.map reGetFilenameMatches) contents).remaining =
      contents ∧
    (∀ i, i < preds.length → (preds.getD i pfalse) m = true →
      Ev.dispatch i m (parseContents cs) (ok i m) ∈
        (runCycle true rd ok (preds.map reGetFilenameMatches) contents).events) ∧
    ((runCycle true rd ok (preds.map reGetFilenameMatches) contents).events.count
        (Ev.delete m) = 1) ∧
    ((runCycle true rd ok (preds.map reGetFilenameMatches) contents).events =
      (runCycle true rd ok (preds.map reGetFilenameMatches) contents).events.filter
          (fun e => !e.isDelete) ++
        (runCycle true rd ok (preds.map reGetFilenameMatches) contents).events.filter
          (fun e => e.isDelete)) := by
  have hnodel : ∀ e ∈ (runTriggers true rd ok (preds.map reGetFilenameMatches) 0
      ⟨contents, [], []⟩).events, e.isDelete = false := by
    intro e he
    rcases runTriggers_multi_no_delete _ 0 _ he with h | h
    · simp at h
    · exact h
  have hmatched : m ∈ (runTriggers true rd ok (preds.map reGetFilenameMatches) 0
      ⟨contents, [], []⟩).matchedThisIteration := by
    rw [runTriggers_multi_matched_iff preds 0 ⟨contents, [], []⟩ hm]
    exact Or.inr hex
  have hmnodup : (runTriggers true rd ok (preds.map reGetFilenameMatches) 0
      ⟨contents, [], []⟩).matchedThisIteration.Nodup :=
    runTriggers_multi_matched_nodup preds 0 ⟨contents, [], []⟩ hnd (by simp)
  refine ⟨?_, ?_, ?_, ?_⟩
  · rw [runCycle_multi]
    exact runTriggers_multi_remaining _ 0 _
  · intro i hi hp
    rw [runCycle_multi]
    refine List.mem_append_left _ ?_
    simpa using runTriggers_multi_dispatch_complete hrd preds i 0
      ⟨contents, [], []⟩ hm hi hp
  · rw [runCycle_multi]
    show List.count _ (_ ++ _) = 1
    rw [List.count_append]
    have h0 : List.count (Ev.delete m) (runTriggers true rd ok
        (preds.map reGetFilenameMatches) 0 ⟨contents, [], []⟩).events = 0 := by
      rw [List.count_eq_zero]
      intro hmem
      have := hnodel _ hmem
      simp [Ev.isDelete] at this
    rw [h0, List.count_map_of_injective _ Ev.delete ev_delete_injective,
      List.count_eq_one_of_mem hmnodup hmatched]
  · rw [runCycle_multi]
    show _ ++ _ = List.filter _ (_ ++ _) ++ List.filter _ (_ ++ _)
    rw [List.filter_append, List.filter_append]
    have hA1 : List.filter (fun e => !e.isDelete) (runTriggers true rd ok
        (preds.map reGetFilenameMatches) 0 ⟨contents, [], []⟩).events =
        (runTriggers true rd ok (preds.map reGetFilenameMatches) 0
          ⟨contents, [], []⟩).events :=
      List.filter_eq_self.mpr (fun e he => by rw [hnodel e he]; rfl)
    have hA2 : List.filter (fun e => e.isDelete) (runTriggers true rd ok
        (preds.map reGetFilenameMatches) 0 ⟨contents, [], []⟩).events = [] :=
      List.filter_eq_nil_iff.mpr (fun e he => by rw [hnodel e he]; simp)
    have hB1 : List.filter (fun e => !e.isDelete)
        ((runTriggers true rd ok (preds.map reGetFilenameMatches) 0
          ⟨contents, [], []⟩).matchedThisIteration.map Ev.delete) = [] := by
      refine List.filter_eq_nil_iff.mpr ?_
      intro e he
      obtain ⟨n, _, rfl⟩ := List.mem_map.mp he
      simp [Ev.isDelete]
    have hB2 : List.filter (fun e => e.isDelete)
        ((runTriggers true rd ok (preds.map reGetFilenameMatches) 0
          ⟨contents, [], []⟩).matchedThisIteration.map Ev.delete) =
        ((runTriggers true rd ok (preds.map reGetFilenameMatches) 0
          ⟨contents, [], []⟩).matchedThisIteration.map Ev.delete) := by
      refine List.filter_eq_self.mpr ?_
      intro e he
      obtain ⟨n, _, rfl⟩ := List.mem_map.mp he
      rfl
    rw [hA1, hA2, hB1, hB2, List.append_nil, List.nil_append]

/-- C4 witness: two identical prefix triggers in multi-match mode; the
second trigger also dispatches the file, and the log holds exactly one
removal attempt for it. -/
theorem multi_match_all_triggers_dispatch_witness :
    Ev.dispatch 1 ("a1".toList) (parseContents ("x\ny\n".toList)) true ∈
      (runCycle true (fun _ => some ("x\ny\n".toList)) (fun _ _ => true)
        ([fun s => s.take 1 == ['a'], fun s => s.take 1 == ['a']].map
          reGetFilenameMatches) [("a1".toList)]).events ∧
    (runCycle true (fun _ => some ("x\ny\n".toList)) (fun _ _ => true)
        ([fun s => s.take 1 == ['a'], fun s => s.take 1 == ['a']].map
          reGetFilenameMatches) [("a1".toList)]).events.count
        (Ev.delete ("a1".toList)) = 1 := by
  obtain ⟨-, h2, h3, -⟩ := multi_match_all_triggers_dispatch
    [fun s => s.take 1 == ['a'], fun s => s.take 1 == ['a']]
    (fun _ => some ("x\ny\n".toList)) (fun _ _ => true) [("a1".toList)]
    ("a1".toList) ("x\ny\n".toList) (by decide) (by decide) rfl
    ⟨0, by decide, rfl⟩
  exact ⟨h2 1 (by decide) rfl, h3⟩

/-- C5. An action failure never changes the course of a cycle: the event
log modulo action outcomes is identical for any two action-outcome
assignments (so a failing action is caught, the file is still deleted —
delete on dispatch attempt, not on success — and no exception escapes);
and concretely, in single-match mode, a readable matched file whose
action fails still gets exactly one dispatch attempt (no retry) followed
by exactly one removal attempt. -/
theorem action_failure_still_deleted :
    (∀ (cm : Bool) (rd : Str → Option Str) (ok1 ok2 : ℕ → Str → Bool)
        (trigs : List (List Str → List Str)) (contents : List Str),
      (runCycle cm rd ok1 trigs contents).events.map Ev.eraseOk =
        (runCycle cm rd ok2 trigs contents).events.map Ev.eraseOk) ∧
    (∀ (preds : List (Str → Bool)) (rd : Str → Option Str)
        (ok : ℕ → Str → Bool) (contents : List Str) (m cs : Str) (i : ℕ),
      contents.Nodup → m ∈ contents → rd m = some cs →
      i < preds.length → (preds.getD i pfalse) m = true →
      (∀ j, j < i → (preds.getD j pfalse) m = false) →
      ok i m = false →
      (runCycle false rd ok (preds.map reGetFilenameMatches) contents).events.filter
          (fun e => e.name == m)
        = [Ev.dispatch i m (parseContents cs) false, Ev.delete m]) := by
  constructor
  · intro cm rd ok1 ok2 trigs contents
    obtain ⟨h1, h2, h3⟩ := runTriggers_actionOk_independent cm ok1 ok2 trigs 0
      ⟨contents, [], []⟩ ⟨contents, [], []⟩ rfl rfl rfl
    cases cm with
    | false =>
        rw [runCycle_single, runCycle_single]
        exact h3
    | true =>
        rw [runCycle_multi, runCycle_multi]
        simp only [List.map_append, h2, h3]
  · intro preds rd ok contents m cs i hnd hm hrd hi hp hleast hok
    have h := runTriggers_single_first_wins ok hrd preds i 0 ⟨contents, [], []⟩
      hm hnd hi hp hleast
    rw [runCycle_single]
    rw [Nat.zero_add] at h
    rw [hok] at h
    simpa using h

/-- C5 witness: a single always-failing action on a readable matched
file, in single-match mode — one dispatch attempt recording the failure,
one removal attempt. -/
theorem action_failure_still_deleted_witness :
    (runCycle false (fun _ => some ("x".toList)) (fun _ _ => false)
        ([fun s => s.take 1 == ['a']].map reGetFilenameMatches)
        [("a1".toList)]).events.filter (fun e => e.name == ("a1".toList))
      = [Ev.dispatch 0 ("a1".toList) (parseContents ("x".toList)) false,
         Ev.delete ("a1".toList)] :=
  action_failure_still_deleted.2 [fun s => s.take 1 == ['a']]
    (fun _ => some ("x".toList)) (fun _ _ => false) [("a1".toList)]
    ("a1".toList) ("x".toList) 0 (by decide) (by decide) rfl (by decide) rfl
    (fun j hj => absurd hj (Nat.not_lt_zero j)) rfl

end WatchTower
